import Mathlib

/-!
Formal model of the timetable generator core (`app.py`, class `TimetableGenerator`):
data model, resource grids, feasibility check, placement loop, alternative
suggester and conflict detector, together with theorems about the properties
the design documents ascribe to them.

Modelling conventions:
* Python dicts used as boolean occupancy grids (`teacher_schedule`,
  `classroom_schedule`, `cohort_schedule`) start all-`False` and are only ever
  flipped to `True`; they are modelled as the list of `(key, day, slot)`
  triples currently `True` (`occupied` is list membership).
* `random.shuffle` is modelled by injected functions `shufT` / `shufC`
  indexed by a call counter (`rnd` in `GenState`), so every possible sequence
  of shuffle outcomes of a real run corresponds to some choice of these
  functions.  Theorems quantify over them.
* The cosmetic `subject_color` entry field is excluded from the model (the
  design document excludes colour-coding from the core contract).
* The Python `while` loop bounded by `attempts_guard < n * 300` is modelled
  by fuel recursion with initial fuel `n * 300`; the returned middle
  component is the final value of `attempts_guard`.
-/

namespace Timetable

/-- A teacher: unique name, subject names taught, availability map
day ↦ allowed slots (a day absent from the map means fully available).
Mirrors the teacher dicts consumed by `app.py` (`t.get('subjects', [])`,
`teacher.get('availability', {})`). -/
structure Teacher where
  name : String
  subjects : List String
  availability : List (String × List String)
deriving DecidableEq, Repr

/-- A subject: name, owning cohort (`semester`, `None` meaning the default
"General"), and required sessions per week (`None` meaning the code default). -/
structure Subject where
  name : String
  semester : Option String
  sessions_per_week : Option Nat
deriving DecidableEq, Repr

/-- Python `subject.get('semester', 'General')`. -/
def cohortOf (s : Subject) : String := s.semester.getD "General"

/-- A schedule entry as built by `place_entry` (minus the cosmetic
`subject_color`).  `semester` is optional because externally supplied entries
may omit it (`e.get('semester', 'General')` in `detect_conflicts`). -/
structure Entry where
  day : String
  time_slot : String
  subject : String
  teacher : String
  classroom : String
  semester : Option String
deriving DecidableEq, Repr

/-- A conflict record.  The Python code uses dicts whose field sets
distinguish the four shapes (the unplaced record and the cohort clash both
carry `'type': 'student'` but different fields). -/
inductive Conflict where
  /-- Unplaced-sessions conflict: semester, subjects (a one-element list),
  `missing_sessions`, suggestions.  `day`/`time_slot` are `None` in the code. -/
  | unplaced (semester : String) (subjects : List String)
      (missing_sessions : Nat) (suggestions : List String) : Conflict
  /-- Teacher resource clash. -/
  | teacherClash (teacher day time_slot : String) (subjects : List String) : Conflict
  /-- Classroom resource clash. -/
  | classroomClash (classroom day time_slot : String) (subjects : List String) : Conflict
  /-- Cohort resource clash (`'type': 'student'` with day/slot set). -/
  | studentClash (semester day time_slot : String) (subjects : List String) : Conflict
deriving DecidableEq, Repr

/-- Occupancy test on a grid represented as the list of `True` cells. -/
def occupied (occ : List (String × String × String)) (k day slot : String) : Bool :=
  decide ((k, day, slot) ∈ occ)

/-- Mutable state of one generation run: the three grids, the per-cohort
per-day load counts, the timetable and conflict lists, and the shuffle-call
counter standing for the random-number-generator state. -/
structure GenState where
  timetable : List Entry
  conflicts : List Conflict
  teacherOcc : List (String × String × String)
  classroomOcc : List (String × String × String)
  cohortOcc : List (String × String × String)
  cohort_load : List ((String × String) × Nat)
  rnd : Nat

/-- Fresh state at the start of `generate`: all grids unoccupied, empty
timetable and conflict list. -/
def initState : GenState :=
  { timetable := [], conflicts := [], teacherOcc := [], classroomOcc := [],
    cohortOcc := [], cohort_load := [], rnd := 0 }

/-- Immutable inputs of one generation run plus the injected shuffle
functions (standing for `random.shuffle`, indexed by the call counter). -/
structure GenCtx where
  teachers : List Teacher
  subjects : List Subject
  classrooms : List String
  time_slots : List String
  days : List String
  shufT : Nat → List Teacher → List Teacher
  shufC : Nat → List String → List String

/-- Python `cohort_load.get(cohort, {}).get(day, 0)`. -/
def loadGet (cohort_load : List ((String × String) × Nat)) (cohort day : String) : Nat :=
  (cohort_load.lookup (cohort, day)).getD 0

/-- Python `cohort_load.setdefault(semester, {}).setdefault(day, 0)` followed by
`cohort_load[semester][day] += 1`. -/
def loadInc : List ((String × String) × Nat) → String → String → List ((String × String) × Nat)
  | [], cohort, day => [((cohort, day), 1)]
  | (k, v) :: rest, cohort, day =>
    if k = (cohort, day) then (k, v + 1) :: rest else (k, v) :: loadInc rest cohort day

/-- Ranking function `_rank_slots`: lower is better; pure daily-load scoring, the contiguity
bonus is a constant 0 in the source. -/
def _rank_slots (cohort_load : List ((String × String) × Nat))
    (day slot cohort : String) : Nat :=
  let day_load := loadGet cohort_load cohort day
  let contiguous_bonus := 0
  day_load * 10 - contiguous_bonus

/-- Availability test `is_teacher_available`: a day absent from the availability map means
available on every slot of that day. -/
def is_teacher_available (teacher : Teacher) (day time_slot : String) : Bool :=
  match teacher.availability.lookup day with
  | none => true
  | some slots => decide (time_slot ∈ slots)

/-- Case-insensitive test `subject['name'].lower() in [s.lower() for s in t.get('subjects', [])]`. -/
def teachesSubject (t : Teacher) (subjectName : String) : Bool :=
  decide (subjectName.toLower ∈ t.subjects.map (fun s => s.toLower))

/-- Feasibility check `can_place`: all three grids free and the teacher available. -/
def can_place (st : GenState) (subject : Subject) (teacher : Teacher)
    (classroom day slot : String) : Bool :=
  let semester := cohortOf subject
  !occupied st.teacherOcc teacher.name day slot &&
  !occupied st.classroomOcc classroom day slot &&
  !occupied st.cohortOcc semester day slot &&
  is_teacher_available teacher day slot

/-- The entry dict built inside `place_entry`. -/
def mkEntry (subject : Subject) (teacher : Teacher) (classroom day slot : String) : Entry :=
  { day := day, time_slot := slot, subject := subject.name,
    teacher := teacher.name, classroom := classroom, semester := some (cohortOf subject) }

/-- Commit `place_entry`: append the entry, mark the three grids, bump the load. -/
def place_entry (st : GenState) (subject : Subject) (teacher : Teacher)
    (classroom day slot : String) : GenState :=
  let semester := cohortOf subject
  { st with
    timetable := st.timetable ++ [mkEntry subject teacher classroom day slot],
    teacherOcc := st.teacherOcc ++ [(teacher.name, day, slot)],
    classroomOcc := st.classroomOcc ++ [(classroom, day, slot)],
    cohortOcc := st.cohortOcc ++ [(semester, day, slot)],
    cohort_load := loadInc st.cohort_load semester day }

/-- One (day, slot) cell qualifies for a suggestion: some teacher teaches the
subject, is unoccupied there and available, some classroom is unoccupied
there, and the cohort is unoccupied there. -/
def qualifies (ctx : GenCtx) (st : GenState) (subject : Subject)
    (day slot : String) : Bool :=
  let available_teachers := ctx.teachers.filter (fun t =>
    teachesSubject t subject.name &&
    !occupied st.teacherOcc t.name day slot &&
    is_teacher_available t day slot)
  let available_classrooms := ctx.classrooms.filter (fun c =>
    !occupied st.classroomOcc c day slot)
  !available_teachers.isEmpty && !available_classrooms.isEmpty &&
  !occupied st.cohortOcc (cohortOf subject) day slot

/-- The human-readable suggestion string `f"{day} @ {slot}"`. -/
def dispStr (day slot : String) : String := s!"{day} @ {slot}"

/-- Inner slot loop of `suggest_alternatives`; the Bool signals the early
`return` once the cap is reached. -/
def suggestInner (ctx : GenCtx) (st : GenState) (subject : Subject)
    (maxS : Nat) (day : String) : List String → List String → List String × Bool
  | [], acc => (acc, false)
  | slot :: rest, acc =>
    if qualifies ctx st subject day slot then
      let acc' := acc ++ [dispStr day slot]
      if maxS ≤ acc'.length then (acc', true)
      else suggestInner ctx st subject maxS day rest acc'
    else suggestInner ctx st subject maxS day rest acc

/-- Outer day loop of `suggest_alternatives`. -/
def suggestOuter (ctx : GenCtx) (st : GenState) (subject : Subject)
    (maxS : Nat) : List String → List String → List String
  | [], acc => acc
  | day :: ds, acc =>
    match suggestInner ctx st subject maxS day ctx.time_slots acc with
    | (acc', true) => acc'
    | (acc', false) => suggestOuter ctx st subject maxS ds acc'

/-- Suggester `suggest_alternatives(subject, max_suggestions)`: scan days then slots in
input order, collecting qualifying cells up to the cap.  Read-only. -/
def suggest_alternatives (ctx : GenCtx) (st : GenState) (subject : Subject)
    (maxS : Nat) : List String :=
  suggestOuter ctx st subject maxS ctx.days []

/-- First feasible classroom of the (shuffled) free-classroom list
(innermost loop of the placement search). -/
def tryClassrooms (st : GenState) (subject : Subject) (teacher : Teacher)
    (day slot : String) : List String → Option String
  | [] => none
  | c :: cs =>
    if can_place st subject teacher c day slot then some c
    else tryClassrooms st subject teacher day slot cs

/-- Teacher loop of the placement search: skip unavailable teachers, shuffle
the free classrooms (consuming one shuffle call) and take the first feasible
pair.  Returns the consumed shuffle counter. -/
def tryTeachers (ctx : GenCtx) (st : GenState) (subject : Subject)
    (day slot : String) : Nat → List Teacher → Option (Teacher × String) × Nat
  | rnd, [] => (none, rnd)
  | rnd, t :: ts =>
    if is_teacher_available t day slot then
      let free_classrooms := ctx.classrooms.filter (fun c =>
        !occupied st.classroomOcc c day slot)
      match tryClassrooms st subject t day slot (ctx.shufC rnd free_classrooms) with
      | some c => (some (t, c), rnd + 1)
      | none => tryTeachers ctx st subject day slot (rnd + 1) ts
    else tryTeachers ctx st subject day slot rnd ts

/-- Candidate loop of the placement search: for each ranked (day, slot), the
teachers teaching the subject are shuffled (one shuffle call) and scanned.
The search is read-only; the caller commits the first feasible placement,
matching the Python loop that breaks out of all loops at the first commit. -/
def tryCandidates (ctx : GenCtx) (st : GenState) (subject : Subject) :
    Nat → List (Nat × String × String) → Option (Teacher × String × String × String) × Nat
  | rnd, [] => (none, rnd)
  | rnd, (_, day, slot) :: rest =>
    let available_teachers := ctx.teachers.filter (fun t => teachesSubject t subject.name)
    match tryTeachers ctx st subject day slot (rnd + 1) (ctx.shufT rnd available_teachers) with
    | (some (t, c), rnd') => (some (t, c, day, slot), rnd')
    | (none, rnd') => tryCandidates ctx st subject rnd' rest

/-- Stable insertion of a scored candidate (before the first strictly larger
score, hence after earlier equal scores). -/
def insertRanked (x : Nat × String × String) :
    List (Nat × String × String) → List (Nat × String × String)
  | [] => [x]
  | y :: ys => if x.1 ≤ y.1 then x :: y :: ys else y :: insertRanked x ys

/-- Stable sort by score.  `candidates.sort(key=lambda x: x[0])` is a stable
sort; every stable sort by score computes the same list, realised here as a
stable insertion sort so it evaluates structurally. -/
def sortRanked : List (Nat × String × String) → List (Nat × String × String)
  | [] => []
  | x :: xs => insertRanked x (sortRanked xs)

/-- One iteration of the `while` body: rank all (day, slot) candidates, walk
them in sorted order and commit the first feasible (teacher, classroom).
Returns the `assigned_here` flag and the updated state. -/
def attemptOnce (ctx : GenCtx) (subject : Subject) (st : GenState) : Bool × GenState :=
  let semester := cohortOf subject
  let candidates := ctx.days.flatMap (fun day =>
    ctx.time_slots.map (fun slot =>
      (_rank_slots st.cohort_load day slot semester, day, slot)))
  match tryCandidates ctx st subject st.rnd (sortRanked candidates) with
  | (some (t, c, day, slot), rnd') =>
    (true, place_entry { st with rnd := rnd' } subject t c day slot)
  | (none, rnd') => (false, { st with rnd := rnd' })

/-- The bounded `while placed < n and attempts_guard < n*300` loop; fuel is
`n*300 - attempts_guard`.  Returns (placed, attempts_guard, state);
a fruitless attempt (`assigned_here == False`) breaks out immediately. -/
def placeLoop (ctx : GenCtx) (subject : Subject) (n : Nat) :
    Nat → Nat → Nat → GenState → Nat × Nat × GenState
  | 0, placed, attempts, st => (placed, attempts, st)
  | fuel + 1, placed, attempts, st =>
    if placed < n then
      match attemptOnce ctx subject st with
      | (true, st') => placeLoop ctx subject n fuel (placed + 1) (attempts + 1) st'
      | (false, st') => (placed, attempts + 1, st')
    else (placed, attempts, st)

/-- Per-subject body of `generate`: run the placement loop and, on a
shortfall, append one unplaced-sessions conflict with up to 5 suggestions. -/
def processSubject (ctx : GenCtx) (st : GenState) (subject : Subject) : GenState :=
  let n := subject.sessions_per_week.getD 2
  match placeLoop ctx subject n (n * 300) 0 0 st with
  | (placed, _, st') =>
    if placed < n then
      let missing := n - placed
      let suggestions := suggest_alternatives ctx st' subject 5
      { st' with conflicts := st'.conflicts ++
          [Conflict.unplaced (cohortOf subject) [subject.name] missing suggestions] }
    else st'

/-- Python `indexed.setdefault(key, []).append(e)`: append `v` to the group of `k`,
creating the group at the end when `k` is new (Python dicts iterate in key
insertion order). -/
def insertGrouped {κ α : Type} [DecidableEq κ] (k : κ) (v : α) :
    List (κ × List α) → List (κ × List α)
  | [] => [(k, [v])]
  | (k', vs) :: rest =>
    if k = k' then (k', vs ++ [v]) :: rest else (k', vs) :: insertGrouped k v rest

/-- Group a list by a key, preserving key first-appearance order and
within-group input order — the semantics of the Python dict-of-lists build. -/
def groupByKey {κ α : Type} [DecidableEq κ] (key : α → κ) (l : List α) :
    List (κ × List α) :=
  l.foldl (fun acc x => insertGrouped (key x) x acc) []

/-- The clash records of one (day, slot) group: teacher clashes first, then
classroom, then cohort, each in first-appearance order. -/
def clashesAt (day slot : String) (entries : List Entry) : List Conflict :=
  let teacher_map := groupByKey (fun e => e.teacher) entries
  let classroom_map := groupByKey (fun e => e.classroom) entries
  let cohort_map := groupByKey (fun e => e.semester.getD "General") entries
  ((teacher_map.filter (fun q => 1 < q.2.length)).map (fun q =>
    Conflict.teacherClash q.1 day slot (q.2.map (fun e => e.subject)))) ++
  ((classroom_map.filter (fun q => 1 < q.2.length)).map (fun q =>
    Conflict.classroomClash q.1 day slot (q.2.map (fun e => e.subject)))) ++
  ((cohort_map.filter (fun q => 1 < q.2.length)).map (fun q =>
    Conflict.studentClash q.1 day slot (q.2.map (fun e => e.subject))))

/-- The local `conflicts` list built by `detect_conflicts`: partition by
(day, slot), then emit clash records per group. -/
def detect_conflicts_list (tt : List Entry) : List Conflict :=
  (groupByKey (fun e => (e.day, e.time_slot)) tt).flatMap (fun p =>
    clashesAt p.1.1 p.1.2 p.2)

/-- The `detect_conflicts` method: reads `self.timetable` and extends
`self.conflicts` with the freshly computed clash records. -/
def detect_conflicts (timetable : List Entry) (conflicts : List Conflict) :
    List Conflict :=
  conflicts ++ detect_conflicts_list timetable

/-- Result shape of `generate`: `{'timetable': ..., 'conflicts': ...}`. -/
structure GenResult where
  timetable : List Entry
  conflicts : List Conflict
deriving DecidableEq, Repr

/-- Top-level `generate`: process each subject in input order against the shared grid
state, then run the conflict detector over the finished timetable. -/
def generate (ctx : GenCtx) : GenResult :=
  let st := ctx.subjects.foldl (processSubject ctx) initState
  { timetable := st.timetable,
    conflicts := detect_conflicts st.timetable st.conflicts }

/-! ### Derived and specification-side definitions -/

/-- The keys of a list in first-appearance order — the iteration order of a
Python dict built by successive `setdefault` calls. -/
def firstKeys {κ : Type} [DecidableEq κ] : List κ → List κ
  | [] => []
  | k :: ks => k :: firstKeys (ks.filter (fun x => x ≠ k))
  termination_by l => l.length
  decreasing_by
    simp only [List.length_cons]
    exact Nat.lt_succ_of_le (List.length_filter_le _ _)

/-- Explicit description of the Python dict-of-lists grouping: one group per
key in first-appearance order, each group holding the input's elements with
that key in input order. -/
def groupsOf {κ α : Type} [DecidableEq κ] (key : α → κ) (l : List α) :
    List (κ × List α) :=
  (firstKeys (l.map key)).map (fun k => (k, l.filter (fun x => key x = k)))

/-- No double-booking: any two entries sharing a (day, slot) differ in
teacher, classroom and cohort. -/
def NoDoubleBooking (tt : List Entry) : Prop :=
  tt.Pairwise (fun a b => a.day = b.day → a.time_slot = b.time_slot →
    a.teacher ≠ b.teacher ∧ a.classroom ≠ b.classroom ∧
    a.semester.getD "General" ≠ b.semester.getD "General")

/-- The three grids mirror exactly the committed timetable. -/
def GridsMatch (st : GenState) : Prop :=
  st.teacherOcc = st.timetable.map (fun e => (e.teacher, e.day, e.time_slot)) ∧
  st.classroomOcc = st.timetable.map (fun e => (e.classroom, e.day, e.time_slot)) ∧
  st.cohortOcc = st.timetable.map (fun e => (e.semester.getD "General", e.day, e.time_slot))

/-- Run invariant: grids mirror the timetable and the timetable is clash-free. -/
def Inv (st : GenState) : Prop := GridsMatch st ∧ NoDoubleBooking st.timetable

/-- Modelled on the specification's contract for the Conflict Detector:
group entries by (day, slot); within each group, group again by teacher, by
classroom and by cohort independently; every sub-group with more than one
entry produces one conflict record of the corresponding kind listing all the
sub-group's subject names. -/
def conflictsSpec (tt : List Entry) : List Conflict :=
  (firstKeys (tt.map (fun e => (e.day, e.time_slot)))).flatMap (fun k =>
    let entries := tt.filter (fun e => (e.day, e.time_slot) = k)
    (((firstKeys (entries.map (fun e => e.teacher))).filter (fun t =>
        1 < (entries.filter (fun e => e.teacher = t)).length)).map (fun t =>
      Conflict.teacherClash t k.1 k.2
        ((entries.filter (fun e => e.teacher = t)).map (fun e => e.subject)))) ++
    (((firstKeys (entries.map (fun e => e.classroom))).filter (fun c =>
        1 < (entries.filter (fun e => e.classroom = c)).length)).map (fun c =>
      Conflict.classroomClash c k.1 k.2
        ((entries.filter (fun e => e.classroom = c)).map (fun e => e.subject)))) ++
    (((firstKeys (entries.map (fun e => e.semester.getD "General"))).filter (fun coh =>
        1 < (entries.filter (fun e => e.semester.getD "General" = coh)).length)).map (fun coh =>
      Conflict.studentClash coh k.1 k.2
        ((entries.filter (fun e => e.semester.getD "General" = coh)).map
          (fun e => e.subject)))))

/-- Canonical view of a conflict record: the `type` tag and identifying
fields as in the code's dicts, with the subject list read as a multiset. -/
def canonConflict : Conflict → String × String × String × String × Multiset String
  | .unplaced semester subjects _ _ => ("unplaced", semester, "", "", (subjects : Multiset String))
  | .teacherClash t day slot subjects => ("teacher", t, day, slot, (subjects : Multiset String))
  | .classroomClash c day slot subjects => ("classroom", c, day, slot, (subjects : Multiset String))
  | .studentClash semester day slot subjects => ("student", semester, day, slot, (subjects : Multiset String))

/-- All (day, slot) cells in scan order: days outer, slots inner, both in
input order. -/
def allPairs (ctx : GenCtx) : List (String × String) :=
  ctx.days.flatMap (fun day => ctx.time_slots.map (fun slot => (day, slot)))

/-- Example inputs used for concrete instantiations. -/
def exTeacher : Teacher := { name := "T", subjects := ["Math"], availability := [] }

def exSubject : Subject :=
  { name := "Math", semester := some "A", sessions_per_week := some 1 }

def exCtx : GenCtx :=
  { teachers := [exTeacher], subjects := [exSubject], classrooms := ["R1"],
    time_slots := ["S1"], days := ["Mon"],
    shufT := fun _ l => l, shufC := fun _ l => l }

/-- A subject no teacher of `exCtxNoTeacher` teaches, with no
sessions-per-week value. -/
def exSubjectChem : Subject :=
  { name := "Chem", semester := none, sessions_per_week := none }

def exCtxNoTeacher : GenCtx :=
  { teachers := [], subjects := [exSubjectChem], classrooms := ["R1"],
    time_slots := ["S1"], days := ["Mon"],
    shufT := fun _ l => l, shufC := fun _ l => l }

/-! ### Characterisation of the dict-of-lists grouping -/

section Grouping

variable {κ α : Type} [DecidableEq κ]

theorem firstKeys_mem : ∀ (l : List κ) (a : κ), (a ∈ firstKeys l ↔ a ∈ l) := by
  have H : ∀ (n : Nat) (l : List κ), l.length ≤ n → ∀ a, (a ∈ firstKeys l ↔ a ∈ l) := by
    intro n
    induction n with
    | zero =>
      intro l hl a
      have : l = [] := List.eq_nil_of_length_eq_zero (Nat.le_zero.mp hl)
      subst this; simp [firstKeys]
    | succ n ih =>
      intro l hl a
      match l with
      | [] => simp [firstKeys]
      | k :: ks =>
        have hlen : (ks.filter (fun x => x ≠ k)).length ≤ n :=
          le_trans (List.length_filter_le _ _)
            (by simpa using Nat.le_of_succ_le_succ hl)
        by_cases hak : a = k
        · simp [firstKeys, hak]
        · simp only [firstKeys, List.mem_cons, hak, false_or]
          rw [ih _ hlen a]
          simp [List.mem_filter, hak]
  intro l a; exact H l.length l le_rfl a

theorem firstKeys_nodup : ∀ (l : List κ), (firstKeys l).Nodup := by
  have H : ∀ (n : Nat) (l : List κ), l.length ≤ n → (firstKeys l).Nodup := by
    intro n
    induction n with
    | zero =>
      intro l hl
      have : l = [] := List.eq_nil_of_length_eq_zero (Nat.le_zero.mp hl)
      subst this; simp [firstKeys]
    | succ n ih =>
      intro l hl
      match l with
      | [] => simp [firstKeys]
      | k :: ks =>
        have hlen : (ks.filter (fun x => x ≠ k)).length ≤ n :=
          le_trans (List.length_filter_le _ _)
            (by simpa using Nat.le_of_succ_le_succ hl)
        simp only [firstKeys, List.nodup_cons]
        refine ⟨fun hmem => ?_, ih _ hlen⟩
        rw [firstKeys_mem] at hmem
        simp [List.mem_filter] at hmem
  intro l; exact H l.length l le_rfl

theorem firstKeys_append_singleton : ∀ (l : List κ) (k : κ),
    firstKeys (l ++ [k]) = if k ∈ l then firstKeys l else firstKeys l ++ [k] := by
  have H : ∀ (n : Nat) (l : List κ), l.length ≤ n → ∀ k,
      firstKeys (l ++ [k]) = if k ∈ l then firstKeys l else firstKeys l ++ [k] := by
    intro n
    induction n with
    | zero =>
      intro l hl k
      have : l = [] := List.eq_nil_of_length_eq_zero (Nat.le_zero.mp hl)
      subst this; simp [firstKeys]
    | succ n ih =>
      intro l hl k
      match l with
      | [] => simp [firstKeys]
      | x :: xs =>
        have hxs : xs.length ≤ n := by simpa using Nat.le_of_succ_le_succ hl
        have hlen : (xs.filter (fun y => y ≠ x)).length ≤ n :=
          le_trans (List.length_filter_le _ _) hxs
        by_cases hkx : k = x
        · subst hkx
          simp [firstKeys, List.filter_append, List.mem_cons]
        · have hfilter : (xs ++ [k]).filter (fun y => y ≠ x) =
              xs.filter (fun y => y ≠ x) ++ [k] := by
            simp [List.filter_append, hkx]
          simp only [List.cons_append, firstKeys, hfilter]
          rw [ih _ hlen k]
          have hmemf : k ∈ xs.filter (fun y => y ≠ x) ↔ k ∈ xs := by
            simp [List.mem_filter, hkx]
          by_cases hk : k ∈ xs
          · simp [hmemf, hk, List.mem_cons, hkx]
          · simp [hmemf, hk, List.mem_cons, hkx]
  intro l k; exact H l.length l le_rfl k

theorem insertGrouped_of_not_mem {k : κ} {v : α} :
    ∀ (acc : List (κ × List α)), k ∉ acc.map Prod.fst →
      insertGrouped k v acc = acc ++ [(k, [v])] := by
  intro acc
  induction acc with
  | nil => intro _; rfl
  | cons p rest ih =>
    intro h
    obtain ⟨k', vs⟩ := p
    simp only [List.map_cons, List.mem_cons] at h
    push_neg at h
    simp only [insertGrouped, if_neg h.1, List.cons_append]
    rw [ih h.2]

theorem insertGrouped_of_mem {k : κ} {v : α} (vs : List α) (bs : List (κ × List α)) :
    ∀ (as : List (κ × List α)), k ∉ as.map Prod.fst →
      insertGrouped k v (as ++ (k, vs) :: bs) = as ++ (k, vs ++ [v]) :: bs := by
  intro as
  induction as with
  | nil => intro _; simp [insertGrouped]
  | cons p rest ih =>
    intro h
    obtain ⟨k', vs'⟩ := p
    simp only [List.map_cons, List.mem_cons] at h
    push_neg at h
    simp only [List.cons_append, insertGrouped, if_neg h.1]
    exact congrArg _ (ih h.2)

theorem groupByKey_eq_groupsOf (key : α → κ) (l : List α) :
    groupByKey key l = groupsOf key l := by
  induction l using List.reverseRecOn with
  | nil => simp [groupByKey, groupsOf, firstKeys]
  | append_singleton l x ih =>
    have hfold : groupByKey key (l ++ [x]) =
        insertGrouped (key x) x (groupByKey key l) := by
      simp [groupByKey, List.foldl_append]
    rw [hfold, ih]
    by_cases hmem : key x ∈ l.map key
    · -- the key already has a group: it is unique and gets `x` appended
      obtain ⟨as, bs, hsplit⟩ :=
        List.append_of_mem ((firstKeys_mem (l.map key) (key x)).mpr hmem)
      have hnd := firstKeys_nodup (l.map key)
      rw [hsplit] at hnd
      have hnotas : key x ∉ as := by
        intro hin
        rcases List.nodup_append.mp hnd with ⟨-, -, hdisj⟩
        exact hdisj hin (List.mem_cons_self _ _)
      have hnotbs : key x ∉ bs := by
        rcases List.nodup_append.mp hnd with ⟨-, hnd2, -⟩
        exact (List.nodup_cons.mp hnd2).1
      have hkeys2 : firstKeys ((l ++ [x]).map key) = as ++ key x :: bs := by
        rw [List.map_append, List.map_singleton,
          firstKeys_append_singleton, if_pos hmem, hsplit]
      set f : κ → κ × List α := fun k => (k, l.filter (fun y => key y = k)) with hf
      set g : κ → κ × List α := fun k => (k, (l ++ [x]).filter (fun y => key y = k)) with hg
      have hfg : ∀ k, k ≠ key x → f k = g k := by
        intro k hk
        simp only [hf, hg, List.filter_append, Prod.mk.injEq, true_and]
        have : ([x].filter (fun y => key y = k)) = [] := by
          simp [List.filter, hk.symm]
        simp [this]
      have hmapas : as.map f = as.map g := by
        apply List.map_congr_left
        intro k hk
        exact hfg k (fun h => hnotas (h ▸ hk))
      have hmapbs : bs.map f = bs.map g := by
        apply List.map_congr_left
        intro k hk
        exact hfg k (fun h => hnotbs (h ▸ hk))
      have hgrp : groupsOf key l = as.map f ++ (key x, l.filter (fun y => key y = key x)) :: bs.map f := by
        rw [groupsOf, hsplit, List.map_append, List.map_cons]
      rw [hgrp]
      have hnotas' : key x ∉ (as.map f).map Prod.fst := by
        simpa [hf, List.map_map, Function.comp] using hnotas
      rw [insertGrouped_of_mem _ _ _ hnotas']
      rw [groupsOf, hkeys2, List.map_append, List.map_cons, hmapas, hmapbs]
      congr 2
      simp only [hg, Prod.mk.injEq, true_and, List.filter_append]
      simp [List.filter]
    · -- new key: the group list gets a fresh singleton group at the end
      have hnot : key x ∉ (groupsOf key l).map Prod.fst := by
        rw [groupsOf, List.map_map]
        simpa [Function.comp, firstKeys_mem] using hmem
      rw [insertGrouped_of_not_mem _ hnot]
      have hkeys2 : firstKeys ((l ++ [x]).map key) =
          firstKeys (l.map key) ++ [key x] := by
        rw [List.map_append, List.map_singleton,
          firstKeys_append_singleton, if_neg hmem]
      unfold groupsOf
      rw [hkeys2, List.map_append, List.map_singleton]
      congr 1
      · apply List.map_congr_left
        intro k hk
        rw [firstKeys_mem] at hk
        have hkx : key x ≠ k := fun h => hmem (h ▸ hk)
        simp only [Prod.mk.injEq, true_and, List.filter_append]
        have : ([x].filter (fun y => key y = k)) = [] := by
          simp [List.filter, hkx]
        simp [this]
      · have hnil : l.filter (fun y => key y = key x) = [] := by
          rw [List.filter_eq_nil_iff]
          intro a ha
          simp only [decide_eq_true_eq]
          exact fun h => hmem (h ▸ List.mem_map_of_mem key ha)
        simp [List.filter_append, hnil, List.filter]

end Grouping

/-! ### The detector reports nothing on clash-free timetables -/

theorem mem_groupByKey {κ α : Type} [DecidableEq κ] {key : α → κ} {l : List α}
    {q : κ × List α} (h : q ∈ groupByKey key l) :
    q.2 = l.filter (fun x => key x = q.1) := by
  rw [groupByKey_eq_groupsOf] at h
  unfold groupsOf at h
  obtain ⟨k, _, hq⟩ := List.mem_map.mp h
  cases hq
  rfl

theorem length_filter_le_one {α : Type} {p : α → Bool} :
    ∀ {l : List α}, l.Pairwise (fun a b => ¬(p a = true ∧ p b = true)) →
      (l.filter p).length ≤ 1 := by
  intro l h
  induction l with
  | nil => simp
  | cons x xs ih =>
    rw [List.pairwise_cons] at h
    by_cases hpx : p x = true
    · have hnil : xs.filter p = [] := by
        rw [List.filter_eq_nil_iff]
        intro a ha hpa
        exact h.1 a ha ⟨hpx, hpa⟩
      simp [List.filter_cons, hpx, hnil]
    · simp only [List.filter_cons, if_neg hpx]
      exact ih h.2

/-- A sub-grouping by a key on which the entries are pairwise distinct has no
group of size above one. -/
theorem clashBlock_nil {κ : Type} [DecidableEq κ] {f : Entry → κ} {entries : List Entry}
    (h : entries.Pairwise (fun a b => f a ≠ f b)) :
    (groupByKey f entries).filter (fun q => 1 < q.2.length) = [] := by
  rw [List.filter_eq_nil_iff]
  intro q hq
  have hq2 := mem_groupByKey hq
  have hlen : q.2.length ≤ 1 := by
    rw [hq2]
    apply length_filter_le_one
    apply h.imp
    intro a b hab hc
    obtain ⟨ha, hb⟩ := hc
    rw [decide_eq_true_eq] at ha hb
    exact hab (ha.trans hb.symm)
  simpa using Nat.not_lt.mpr hlen

theorem detect_conflicts_list_eq_nil {tt : List Entry} (h : NoDoubleBooking tt) :
    detect_conflicts_list tt = [] := by
  unfold detect_conflicts_list
  rw [List.flatMap_eq_nil_iff]
  intro p hp
  have hp2 := mem_groupByKey hp
  have hsub : p.2.Sublist tt := hp2 ▸ List.filter_sublist tt
  have hkey : ∀ e ∈ p.2, e.day = p.1.1 ∧ e.time_slot = p.1.2 := by
    intro e he
    rw [hp2] at he
    have := (List.mem_filter.mp he).2
    rw [decide_eq_true_eq, Prod.ext_iff] at this
    exact this
  have hpw := List.Pairwise.sublist hsub h
  have hT : p.2.Pairwise (fun a b => a.teacher ≠ b.teacher) := by
    refine List.Pairwise.imp_of_mem ?_ hpw
    intro a b ha hb hR
    obtain ⟨ha1, ha2⟩ := hkey a ha
    obtain ⟨hb1, hb2⟩ := hkey b hb
    exact (hR (ha1.trans hb1.symm) (ha2.trans hb2.symm)).1
  have hC : p.2.Pairwise (fun a b => a.classroom ≠ b.classroom) := by
    refine List.Pairwise.imp_of_mem ?_ hpw
    intro a b ha hb hR
    obtain ⟨ha1, ha2⟩ := hkey a ha
    obtain ⟨hb1, hb2⟩ := hkey b hb
    exact (hR (ha1.trans hb1.symm) (ha2.trans hb2.symm)).2.1
  have hS : p.2.Pairwise (fun a b =>
      a.semester.getD "General" ≠ b.semester.getD "General") := by
    refine List.Pairwise.imp_of_mem ?_ hpw
    intro a b ha hb hR
    obtain ⟨ha1, ha2⟩ := hkey a ha
    obtain ⟨hb1, hb2⟩ := hkey b hb
    exact (hR (ha1.trans hb1.symm) (ha2.trans hb2.symm)).2.2
  show clashesAt p.1.1 p.1.2 p.2 = []
  simp only [clashesAt, clashBlock_nil (f := fun e => e.teacher) hT,
    clashBlock_nil (f := fun e => e.classroom) hC,
    clashBlock_nil (f := fun e => e.semester.getD "General") hS,
    List.map_nil, List.append_nil]

/-! ### The placement loop preserves the no-double-booking invariant -/

theorem can_place_iff (st : GenState) (subject : Subject) (teacher : Teacher)
    (classroom day slot : String) :
    can_place st subject teacher classroom day slot = true ↔
      ((teacher.name, day, slot) ∉ st.teacherOcc ∧
       (classroom, day, slot) ∉ st.classroomOcc ∧
       (cohortOf subject, day, slot) ∉ st.cohortOcc ∧
       (teacher.availability.lookup day = none ∨
        ∃ ss, teacher.availability.lookup day = some ss ∧ slot ∈ ss)) := by
  unfold can_place occupied is_teacher_available
  cases h : teacher.availability.lookup day <;> simp [h, and_assoc]

theorem tryClassrooms_sound {st : GenState} {subject : Subject} {teacher : Teacher}
    {day slot : String} :
    ∀ {cs : List String} {c : String},
      tryClassrooms st subject teacher day slot cs = some c →
      can_place st subject teacher c day slot = true := by
  intro cs
  induction cs with
  | nil => intro c h; simp [tryClassrooms] at h
  | cons c0 cs ih =>
    intro c h
    by_cases hc : can_place st subject teacher c0 day slot = true
    · rw [tryClassrooms, if_pos hc] at h
      cases h
      exact hc
    · rw [tryClassrooms, if_neg hc] at h
      exact ih h

theorem tryTeachers_sound {ctx : GenCtx} {st : GenState} {subject : Subject}
    {day slot : String} :
    ∀ {ts : List Teacher} {rnd : Nat} {t : Teacher} {c : String} {rnd' : Nat},
      tryTeachers ctx st subject day slot rnd ts = (some (t, c), rnd') →
      can_place st subject t c day slot = true := by
  intro ts
  induction ts with
  | nil => intro rnd t c rnd' h; simp [tryTeachers] at h
  | cons t0 ts ih =>
    intro rnd t c rnd' h
    simp only [tryTeachers] at h
    by_cases havail : is_teacher_available t0 day slot = true
    · rw [if_pos havail] at h
      cases hm : tryClassrooms st subject t0 day slot
          (ctx.shufC rnd (ctx.classrooms.filter
            (fun c => !occupied st.classroomOcc c day slot))) with
      | some c0 =>
        simp only [hm] at h
        rw [Prod.mk.injEq, Option.some.injEq, Prod.mk.injEq] at h
        obtain ⟨⟨rfl, rfl⟩, -⟩ := h
        exact tryClassrooms_sound hm
      | none =>
        simp only [hm] at h
        exact ih h
    · rw [if_neg havail] at h
      exact ih h

theorem tryCandidates_sound {ctx : GenCtx} {st : GenState} {subject : Subject} :
    ∀ {cands : List (Nat × String × String)} {rnd : Nat} {t : Teacher}
      {c day slot : String} {rnd' : Nat},
      tryCandidates ctx st subject rnd cands = (some (t, c, day, slot), rnd') →
      can_place st subject t c day slot = true := by
  intro cands
  induction cands with
  | nil => intro rnd t c day slot rnd' h; simp [tryCandidates] at h
  | cons cand rest ih =>
    intro rnd t c day slot rnd' h
    obtain ⟨sc, d0, s0⟩ := cand
    simp only [tryCandidates] at h
    cases hm : tryTeachers ctx st subject d0 s0 (rnd + 1)
        (ctx.shufT rnd (ctx.teachers.filter
          (fun t => teachesSubject t subject.name))) with
    | mk res r0 =>
      cases res with
      | some tc =>
        obtain ⟨t0, c0⟩ := tc
        simp only [hm] at h
        rw [Prod.mk.injEq, Option.some.injEq] at h
        obtain ⟨h1, -⟩ := h
        rw [Prod.mk.injEq, Prod.mk.injEq, Prod.mk.injEq] at h1
        obtain ⟨rfl, rfl, rfl, rfl⟩ := h1
        exact tryTeachers_sound hm
      | none =>
        simp only [hm] at h
        exact ih h

theorem place_entry_inv {st : GenState} {subject : Subject} {teacher : Teacher}
    {classroom day slot : String} (h : Inv st)
    (hc : can_place st subject teacher classroom day slot = true) :
    Inv (place_entry st subject teacher classroom day slot) := by
  obtain ⟨⟨hT, hC, hS⟩, hP⟩ := h
  rw [can_place_iff] at hc
  obtain ⟨hcT, hcC, hcS, -⟩ := hc
  constructor
  · refine ⟨?_, ?_, ?_⟩ <;>
      simp [place_entry, mkEntry, List.map_append, hT, hC, hS]
  · show NoDoubleBooking (st.timetable ++ [mkEntry subject teacher classroom day slot])
    unfold NoDoubleBooking
    rw [List.pairwise_append]
    refine ⟨hP, List.pairwise_singleton _ _, ?_⟩
    intro a ha b hb
    rw [List.mem_singleton] at hb
    subst hb
    simp only [mkEntry]
    intro hd hs
    rw [hT] at hcT
    rw [hC] at hcC
    rw [hS] at hcS
    refine ⟨fun he => hcT ?_, fun he => hcC ?_, fun he => hcS ?_⟩
    · have hmem : (a.teacher, a.day, a.time_slot) ∈
          st.timetable.map (fun e => (e.teacher, e.day, e.time_slot)) :=
        List.mem_map_of_mem _ ha
      rwa [he, hd, hs] at hmem
    · have hmem : (a.classroom, a.day, a.time_slot) ∈
          st.timetable.map (fun e => (e.classroom, e.day, e.time_slot)) :=
        List.mem_map_of_mem _ ha
      rwa [he, hd, hs] at hmem
    · have hmem : (a.semester.getD "General", a.day, a.time_slot) ∈
          st.timetable.map (fun e => (e.semester.getD "General", e.day, e.time_slot)) :=
        List.mem_map_of_mem _ ha
      simp only [Option.getD_some] at he
      rwa [he, hd, hs] at hmem

theorem attemptOnce_inv {ctx : GenCtx} {subject : Subject} {st : GenState}
    (h : Inv st) : Inv (attemptOnce ctx subject st).2 := by
  simp only [attemptOnce]
  cases hm : tryCandidates ctx st subject st.rnd (sortRanked (ctx.days.flatMap
      (fun day => ctx.time_slots.map (fun slot =>
        (_rank_slots st.cohort_load day slot (cohortOf subject), day, slot))))) with
  | mk res rnd' =>
    cases res with
    | some q =>
      obtain ⟨t, c, d, s⟩ := q
      show Inv (place_entry { st with rnd := rnd' } subject t c d s)
      have hc0 : can_place st subject t c d s = true := tryCandidates_sound hm
      have hc : can_place { st with rnd := rnd' } subject t c d s = true := hc0
      have h' : Inv { st with rnd := rnd' } := h
      exact place_entry_inv h' hc
    | none =>
      show Inv { st with rnd := rnd' }
      exact h

theorem attemptOnce_conflicts {ctx : GenCtx} {subject : Subject} {st : GenState} :
    (attemptOnce ctx subject st).2.conflicts = st.conflicts := by
  simp only [attemptOnce]
  cases hm : tryCandidates ctx st subject st.rnd (sortRanked (ctx.days.flatMap
      (fun day => ctx.time_slots.map (fun slot =>
        (_rank_slots st.cohort_load day slot (cohortOf subject), day, slot))))) with
  | mk res rnd' =>
    cases res with
    | some q => obtain ⟨t, c, d, s⟩ := q; rfl
    | none => rfl

theorem attemptOnce_cases (ctx : GenCtx) (subject : Subject) (st : GenState) :
    ((attemptOnce ctx subject st).1 = false ∧
      (attemptOnce ctx subject st).2.timetable = st.timetable) ∨
    ((attemptOnce ctx subject st).1 = true ∧
      ∃ e, (attemptOnce ctx subject st).2.timetable = st.timetable ++ [e]) := by
  cases hm : tryCandidates ctx st subject st.rnd (sortRanked (ctx.days.flatMap
      (fun day => ctx.time_slots.map (fun slot =>
        (_rank_slots st.cohort_load day slot (cohortOf subject), day, slot))))) with
  | mk res rnd' =>
    cases res with
    | some q =>
      obtain ⟨t, c, d, s⟩ := q
      right
      constructor
      · simp [attemptOnce, hm]
      · refine ⟨mkEntry subject t c d s, ?_⟩
        simp [attemptOnce, hm, place_entry]
    | none =>
      left
      constructor
      · simp [attemptOnce, hm]
      · simp [attemptOnce, hm]

theorem placeLoop_inv {ctx : GenCtx} {subject : Subject} {n : Nat} :
    ∀ (fuel placed attempts : Nat) (st : GenState), Inv st →
      Inv (placeLoop ctx subject n fuel placed attempts st).2.2 := by
  intro fuel
  induction fuel with
  | zero => intro placed attempts st h; exact h
  | succ f ih =>
    intro placed attempts st h
    rw [placeLoop]
    by_cases hp : placed < n
    · rw [if_pos hp]
      cases hA : attemptOnce ctx subject st with
      | mk b st' =>
        have hInv' : Inv st' := by
          have := @attemptOnce_inv ctx subject st h
          rwa [hA] at this
        cases b
        · exact hInv'
        · exact ih _ _ _ hInv'
    · rw [if_neg hp]
      exact h

theorem placeLoop_conflicts {ctx : GenCtx} {subject : Subject} {n : Nat} :
    ∀ (fuel placed attempts : Nat) (st : GenState),
      (placeLoop ctx subject n fuel placed attempts st).2.2.conflicts = st.conflicts := by
  intro fuel
  induction fuel with
  | zero => intro placed attempts st; rfl
  | succ f ih =>
    intro placed attempts st
    rw [placeLoop]
    by_cases hp : placed < n
    · rw [if_pos hp]
      cases hA : attemptOnce ctx subject st with
      | mk b st' =>
        have hconf : st'.conflicts = st.conflicts := by
          have := @attemptOnce_conflicts ctx subject st
          rwa [hA] at this
        cases b
        · exact hconf
        · show (placeLoop ctx subject n f (placed + 1) (attempts + 1) st').2.2.conflicts =
            st.conflicts
          rw [ih (placed + 1) (attempts + 1) st', hconf]
    · rw [if_neg hp]

theorem placeLoop_placed_le {ctx : GenCtx} {subject : Subject} {n : Nat} :
    ∀ (fuel placed attempts : Nat) (st : GenState), placed ≤ n →
      (placeLoop ctx subject n fuel placed attempts st).1 ≤ n := by
  intro fuel
  induction fuel with
  | zero => intro placed attempts st h; exact h
  | succ f ih =>
    intro placed attempts st h
    rw [placeLoop]
    by_cases hp : placed < n
    · rw [if_pos hp]
      cases hA : attemptOnce ctx subject st with
      | mk b st' =>
        cases b
        · exact h
        · exact ih _ _ _ hp
    · rw [if_neg hp]
      exact h

theorem placeLoop_len {ctx : GenCtx} {subject : Subject} {n : Nat} :
    ∀ (fuel placed attempts : Nat) (st : GenState),
      (placeLoop ctx subject n fuel placed attempts st).1 + st.timetable.length =
        placed + (placeLoop ctx subject n fuel placed attempts st).2.2.timetable.length := by
  intro fuel
  induction fuel with
  | zero => intro placed attempts st; rfl
  | succ f ih =>
    intro placed attempts st
    rw [placeLoop]
    by_cases hp : placed < n
    · rw [if_pos hp]
      cases hA : attemptOnce ctx subject st with
      | mk b st' =>
        rcases attemptOnce_cases ctx subject st with ⟨hb, hlen⟩ | ⟨hb, e, hlen⟩ <;>
          rw [hA] at hb hlen
        · cases hb
          show placed + st.timetable.length = placed + st'.timetable.length
          rw [hlen]
        · cases hb
          show (placeLoop ctx subject n f (placed + 1) (attempts + 1) st').1 +
              st.timetable.length =
            placed + (placeLoop ctx subject n f (placed + 1) (attempts + 1) st').2.2.timetable.length
          have hL : st'.timetable.length = st.timetable.length + 1 := by
            rw [hlen, List.length_append, List.length_singleton]
          have := ih (placed + 1) (attempts + 1) st'
          omega
    · rw [if_neg hp]

theorem placeLoop_attempts {ctx : GenCtx} {subject : Subject} {n : Nat} :
    ∀ (fuel placed attempts : Nat) (st : GenState),
      (placeLoop ctx subject n fuel placed attempts st).2.1 ≤ attempts + fuel := by
  intro fuel
  induction fuel with
  | zero => intro placed attempts st; exact Nat.le_refl _
  | succ f ih =>
    intro placed attempts st
    rw [placeLoop]
    by_cases hp : placed < n
    · rw [if_pos hp]
      cases hA : attemptOnce ctx subject st with
      | mk b st' =>
        cases b
        · show attempts + 1 ≤ attempts + (f + 1)
          omega
        · show (placeLoop ctx subject n f (placed + 1) (attempts + 1) st').2.1 ≤
            attempts + (f + 1)
          have := ih (placed + 1) (attempts + 1) st'
          omega
    · rw [if_neg hp]
      show attempts ≤ attempts + (f + 1)
      omega

theorem processSubject_inv {ctx : GenCtx} {st : GenState} {subject : Subject}
    (h : Inv st) : Inv (processSubject ctx st subject) := by
  have hInv := @placeLoop_inv ctx subject (subject.sessions_per_week.getD 2)
    (subject.sessions_per_week.getD 2 * 300) 0 0 st h
  simp only [processSubject]
  cases hL : placeLoop ctx subject (subject.sessions_per_week.getD 2)
      (subject.sessions_per_week.getD 2 * 300) 0 0 st with
  | mk placed rest =>
    obtain ⟨attempts, st'⟩ := rest
    rw [hL] at hInv
    by_cases hp : placed < subject.sessions_per_week.getD 2
    · rw [if_pos hp]
      exact hInv
    · rw [if_neg hp]
      exact hInv

theorem foldl_processSubject_inv (ctx : GenCtx) :
    ∀ (subs : List Subject) (st : GenState), Inv st →
      Inv (subs.foldl (processSubject ctx) st) := by
  intro subs
  induction subs with
  | nil => intro st h; exact h
  | cons s ss ih => intro st h; exact ih _ (processSubject_inv h)

theorem generate_NoDoubleBooking (ctx : GenCtx) :
    NoDoubleBooking (generate ctx).timetable := by
  have hInv : Inv initState := ⟨⟨rfl, rfl, rfl⟩, List.Pairwise.nil⟩
  exact (foldl_processSubject_inv ctx ctx.subjects initState hInv).2

/-- Claim C1: every generated timetable is free of double-booking — for every
(day, slot) pair there is at most one entry per teacher, at most one per
classroom and at most one per cohort — and, equivalently, the conflict
detector run on the freshly generated timetable yields zero resource-clash
records.  This holds for every input and every outcome of the random
shuffles. -/
theorem claim_C1 (ctx : GenCtx) :
    (∀ day slot t, ((generate ctx).timetable.filter (fun e =>
        decide (e.day = day ∧ e.time_slot = slot ∧ e.teacher = t))).length ≤ 1) ∧
    (∀ day slot c, ((generate ctx).timetable.filter (fun e =>
        decide (e.day = day ∧ e.time_slot = slot ∧ e.classroom = c))).length ≤ 1) ∧
    (∀ day slot coh, ((generate ctx).timetable.filter (fun e =>
        decide (e.day = day ∧ e.time_slot = slot ∧
          e.semester.getD "General" = coh))).length ≤ 1) ∧
    detect_conflicts_list (generate ctx).timetable = [] := by
  have hP := generate_NoDoubleBooking ctx
  refine ⟨?_, ?_, ?_, detect_conflicts_list_eq_nil hP⟩
  · intro day slot t
    apply length_filter_le_one
    apply hP.imp
    intro a b hR hc
    obtain ⟨ha, hb⟩ := hc
    rw [decide_eq_true_eq] at ha hb
    obtain ⟨ha1, ha2, ha3⟩ := ha
    obtain ⟨hb1, hb2, hb3⟩ := hb
    exact (hR (ha1.trans hb1.symm) (ha2.trans hb2.symm)).1 (ha3.trans hb3.symm)
  · intro day slot c
    apply length_filter_le_one
    apply hP.imp
    intro a b hR hc
    obtain ⟨ha, hb⟩ := hc
    rw [decide_eq_true_eq] at ha hb
    obtain ⟨ha1, ha2, ha3⟩ := ha
    obtain ⟨hb1, hb2, hb3⟩ := hb
    exact (hR (ha1.trans hb1.symm) (ha2.trans hb2.symm)).2.1 (ha3.trans hb3.symm)
  · intro day slot coh
    apply length_filter_le_one
    apply hP.imp
    intro a b hR hc
    obtain ⟨ha, hb⟩ := hc
    rw [decide_eq_true_eq] at ha hb
    obtain ⟨ha1, ha2, ha3⟩ := ha
    obtain ⟨hb1, hb2, hb3⟩ := hb
    exact (hR (ha1.trans hb1.symm) (ha2.trans hb2.symm)).2.2 (ha3.trans hb3.symm)

/-- Claim C3: the feasibility check returns true iff the teacher is
unoccupied at (day, slot) in the teacher grid, the classroom is unoccupied
in the classroom grid, the subject's cohort is unoccupied in the cohort
grid, and the teacher's availability map either omits the day or lists the
slot for that day.  `can_place` is a pure function of the state, so it has
no side effects. -/
theorem claim_C3 (st : GenState) (subject : Subject) (teacher : Teacher)
    (classroom day slot : String) :
    can_place st subject teacher classroom day slot = true ↔
      ((teacher.name, day, slot) ∉ st.teacherOcc ∧
       (classroom, day, slot) ∉ st.classroomOcc ∧
       (cohortOf subject, day, slot) ∉ st.cohortOcc ∧
       (teacher.availability.lookup day = none ∨
        ∃ ss, teacher.availability.lookup day = some ss ∧ slot ∈ ss)) :=
  can_place_iff st subject teacher classroom day slot

/-! ### The detector agrees with the specification's grouping contract -/

/-- One clash block in the explicit form: sub-group keys in first-appearance
order, keeping those whose sub-group has more than one entry. -/
theorem clashBlock_eq {κ : Type} [DecidableEq κ] (f : Entry → κ)
    (mk : κ → List String → Conflict) (entries : List Entry) :
    ((groupByKey f entries).filter (fun q => 1 < q.2.length)).map
        (fun q => mk q.1 (q.2.map (fun e => e.subject))) =
      ((firstKeys (entries.map f)).filter (fun k =>
          1 < (entries.filter (fun e => f e = k)).length)).map (fun k =>
        mk k ((entries.filter (fun e => f e = k)).map (fun e => e.subject))) := by
  rw [groupByKey_eq_groupsOf]
  unfold groupsOf
  rw [List.filter_map, List.map_map]
  rfl

theorem detect_eq_conflictsSpec (tt : List Entry) :
    detect_conflicts_list tt = conflictsSpec tt := by
  rw [detect_conflicts_list, groupByKey_eq_groupsOf]
  unfold groupsOf conflictsSpec
  rw [List.flatMap_map]
  congr 1
  funext k
  simp only [clashesAt]
  rw [clashBlock_eq (fun e => e.teacher)
      (fun t subs => Conflict.teacherClash t k.1 k.2 subs),
    clashBlock_eq (fun e => e.classroom)
      (fun c subs => Conflict.classroomClash c k.1 k.2 subs),
    clashBlock_eq (fun e => e.semester.getD "General")
      (fun coh subs => Conflict.studentClash coh k.1 k.2 subs)]

/-- Claim C2: on every input entry list the detector implements exactly the
specified partition-then-subgroup contract, and on the hand-built scenario —
two entries sharing teacher, day and slot but with different classrooms —
it emits exactly one teacher-kind conflict listing both subjects and no
classroom-kind conflict. -/
theorem claim_C2 :
    (∀ tt : List Entry, detect_conflicts_list tt = conflictsSpec tt) ∧
    detect_conflicts_list
        [{ day := "Mon", time_slot := "S1", subject := "X", teacher := "T",
           classroom := "R1", semester := some "A" },
         { day := "Mon", time_slot := "S1", subject := "Y", teacher := "T",
           classroom := "R2", semester := some "B" }] =
      [Conflict.teacherClash "T" "Mon" "S1" ["X", "Y"]] :=
  ⟨detect_eq_conflictsSpec, by decide⟩

/-- Claim C5: the `detect_conflicts` method only appends the freshly computed
clash records of the (unchanged) timetable to the conflict list.  Running it
twice on the same timetable makes the second run report exactly the records
the first run reported — no additions, no losses. -/
theorem claim_C5 (tt : List Entry) (cs : List Conflict) :
    (detect_conflicts tt (detect_conflicts tt cs)).drop
        (detect_conflicts tt cs).length =
      (detect_conflicts tt cs).drop cs.length := by
  unfold detect_conflicts
  rw [List.drop_left, List.drop_left]

/-! ### Permutation behaviour of the detector -/

theorem block_canon_perm {κ : Type} [DecidableEq κ] (f : Entry → κ)
    (mk : κ → List String → Conflict)
    (hmk : ∀ (k : κ) (s1 s2 : List String), s1.Perm s2 →
      canonConflict (mk k s1) = canonConflict (mk k s2))
    {e1 e2 : List Entry} (h : e1.Perm e2) :
    ((((firstKeys (e1.map f)).filter (fun k =>
        1 < (e1.filter (fun e => f e = k)).length)).map (fun k =>
      mk k ((e1.filter (fun e => f e = k)).map (fun e => e.subject)))).map
        canonConflict).Perm
    ((((firstKeys (e2.map f)).filter (fun k =>
        1 < (e2.filter (fun e => f e = k)).length)).map (fun k =>
      mk k ((e2.filter (fun e => f e = k)).map (fun e => e.subject)))).map
        canonConflict) := by
  have hK : (firstKeys (e1.map f)).Perm (firstKeys (e2.map f)) := by
    rw [List.perm_ext_iff_of_nodup (firstKeys_nodup _) (firstKeys_nodup _)]
    intro a
    rw [firstKeys_mem, firstKeys_mem]
    exact (h.map f).mem_iff
  have hP : ∀ k : κ, (decide (1 < (e1.filter (fun e => f e = k)).length)) =
      (decide (1 < (e2.filter (fun e => f e = k)).length)) := by
    intro k
    rw [(h.filter (fun e => f e = k)).length_eq]
  rw [List.filter_congr (fun k _ => hP k)]
  have h2 : ((((firstKeys (e1.map f)).filter (fun k =>
        1 < (e2.filter (fun e => f e = k)).length)).map (fun k =>
      mk k ((e1.filter (fun e => f e = k)).map (fun e => e.subject)))).map
        canonConflict).Perm
      ((((firstKeys (e2.map f)).filter (fun k =>
        1 < (e2.filter (fun e => f e = k)).length)).map (fun k =>
      mk k ((e1.filter (fun e => f e = k)).map (fun e => e.subject)))).map
        canonConflict) :=
    ((hK.filter _).map _).map _
  refine h2.trans ?_
  have h3 : (((firstKeys (e2.map f)).filter (fun k =>
        1 < (e2.filter (fun e => f e = k)).length)).map (fun k =>
      mk k ((e1.filter (fun e => f e = k)).map (fun e => e.subject)))).map
        canonConflict =
      (((firstKeys (e2.map f)).filter (fun k =>
        1 < (e2.filter (fun e => f e = k)).length)).map (fun k =>
      mk k ((e2.filter (fun e => f e = k)).map (fun e => e.subject)))).map
        canonConflict := by
    rw [List.map_map, List.map_map]
    exact List.map_congr_left (fun k _ =>
      hmk k _ _ ((h.filter (fun e => f e = k)).map (fun e => e.subject)))
  exact h3 ▸ List.Perm.refl _

/-- Claim C6 counterexample: two permuted two-entry timetables with a shared
teacher produce conflict records whose subject lists are ordered differently,
so the produced record multisets are not equal as the claim states. -/
theorem claim_C6_counterexample :
    ([{ day := "Mon", time_slot := "S1", subject := "X", teacher := "T",
        classroom := "R1", semester := some "A" },
      { day := "Mon", time_slot := "S1", subject := "Y", teacher := "T",
        classroom := "R2", semester := some "B" }] : List Entry).Perm
      [{ day := "Mon", time_slot := "S1", subject := "Y", teacher := "T",
         classroom := "R2", semester := some "B" },
       { day := "Mon", time_slot := "S1", subject := "X", teacher := "T",
         classroom := "R1", semester := some "A" }] ∧
    ¬ (detect_conflicts_list
        [{ day := "Mon", time_slot := "S1", subject := "X", teacher := "T",
           classroom := "R1", semester := some "A" },
         { day := "Mon", time_slot := "S1", subject := "Y", teacher := "T",
           classroom := "R2", semester := some "B" }]).Perm
      (detect_conflicts_list
        [{ day := "Mon", time_slot := "S1", subject := "Y", teacher := "T",
           classroom := "R2", semester := some "B" },
         { day := "Mon", time_slot := "S1", subject := "X", teacher := "T",
           classroom := "R1", semester := some "A" }]) := by
  decide

/-- Claim C6 (amended): for permuted timetables the detector reports the
same clashes up to reordering of the records and of the subject lists inside
each record — the canonicalised record multisets coincide. -/
theorem claim_C6 (tt1 tt2 : List Entry) (h : tt1.Perm tt2) :
    ((detect_conflicts_list tt1).map canonConflict).Perm
      ((detect_conflicts_list tt2).map canonConflict) := by
  rw [detect_eq_conflictsSpec, detect_eq_conflictsSpec]
  unfold conflictsSpec
  rw [List.map_flatMap, List.map_flatMap]
  have hkeys : (firstKeys (tt1.map (fun e => (e.day, e.time_slot)))).Perm
      (firstKeys (tt2.map (fun e => (e.day, e.time_slot)))) := by
    rw [List.perm_ext_iff_of_nodup (firstKeys_nodup _) (firstKeys_nodup _)]
    intro a
    rw [firstKeys_mem, firstKeys_mem]
    exact (h.map _).mem_iff
  refine (List.Perm.flatMap_right _ hkeys).trans (List.Perm.flatMap_left _ ?_)
  intro k _
  have he : (tt1.filter (fun e => (e.day, e.time_slot) = k)).Perm
      (tt2.filter (fun e => (e.day, e.time_slot) = k)) :=
    h.filter (fun e => (e.day, e.time_slot) = k)
  simp only [List.map_append]
  refine List.Perm.append (List.Perm.append ?_ ?_) ?_
  · exact block_canon_perm (fun e => e.teacher)
      (fun t subs => Conflict.teacherClash t k.1 k.2 subs)
      (fun t s1 s2 hs => by
        simp only [canonConflict, Prod.mk.injEq, true_and, Multiset.coe_eq_coe]
        exact hs) he
  · exact block_canon_perm (fun e => e.classroom)
      (fun c subs => Conflict.classroomClash c k.1 k.2 subs)
      (fun c s1 s2 hs => by
        simp only [canonConflict, Prod.mk.injEq, true_and, Multiset.coe_eq_coe]
        exact hs) he
  · exact block_canon_perm (fun e => e.semester.getD "General")
      (fun coh subs => Conflict.studentClash coh k.1 k.2 subs)
      (fun coh s1 s2 hs => by
        simp only [canonConflict, Prod.mk.injEq, true_and, Multiset.coe_eq_coe]
        exact hs) he

/-- Concrete instance of the amended claim C6 at the counterexample's
timetables. -/
theorem claim_C6_witness :
    ((detect_conflicts_list
        [{ day := "Mon", time_slot := "S1", subject := "X", teacher := "T",
           classroom := "R1", semester := some "A" },
         { day := "Mon", time_slot := "S1", subject := "Y", teacher := "T",
           classroom := "R2", semester := some "B" }]).map canonConflict).Perm
      ((detect_conflicts_list
        [{ day := "Mon", time_slot := "S1", subject := "Y", teacher := "T",
           classroom := "R2", semester := some "B" },
         { day := "Mon", time_slot := "S1", subject := "X", teacher := "T",
           classroom := "R1", semester := some "A" }]).map canonConflict) :=
  claim_C6 _ _ (by decide)

/-! ### Characterisation of the alternative suggester -/

theorem suggestInner_eq (ctx : GenCtx) (st : GenState) (subject : Subject)
    (maxS : Nat) (day : String) :
    ∀ (slots : List String) (acc : List String), acc.length < maxS →
      suggestInner ctx st subject maxS day slots acc =
        (acc ++ ((slots.filter (fun s => qualifies ctx st subject day s)).map
            (fun s => dispStr day s)).take (maxS - acc.length),
         decide (maxS - acc.length ≤
           (slots.filter (fun s => qualifies ctx st subject day s)).length)) := by
  intro slots
  induction slots with
  | nil =>
    intro acc hacc
    rw [suggestInner]
    have h0 : ¬ (maxS - acc.length ≤ 0) := by omega
    simp [h0]
  | cons s ss ih =>
    intro acc hacc
    rw [suggestInner]
    by_cases hq : qualifies ctx st subject day s = true
    · have hfc : (s :: ss).filter (fun x => qualifies ctx st subject day x) =
          s :: ss.filter (fun x => qualifies ctx st subject day x) := by
        simp [List.filter_cons, hq]
      rw [if_pos hq, hfc]
      by_cases hcap : maxS ≤ (acc ++ [dispStr day s]).length
      · rw [if_pos hcap]
        rw [List.length_append, List.length_singleton] at hcap
        have h1 : maxS - acc.length = 1 := by omega
        have h2 : maxS - acc.length ≤
            (s :: ss.filter (fun x => qualifies ctx st subject day x)).length := by
          simp [h1]
        simp [h1, h2]
      · rw [if_neg hcap]
        rw [List.length_append, List.length_singleton] at hcap
        have hacc' : (acc ++ [dispStr day s]).length < maxS := by
          rw [List.length_append, List.length_singleton]
          omega
        rw [ih _ hacc']
        have h1 : maxS - acc.length = (maxS - (acc ++ [dispStr day s]).length) + 1 := by
          rw [List.length_append, List.length_singleton]
          omega
        rw [h1]
        simp only [List.map_cons, List.take_succ_cons, List.append_assoc,
          List.singleton_append, List.length_append, List.length_singleton,
          List.length_cons]
        congr 1
        rw [decide_eq_decide]
        omega
    · have hfc : (s :: ss).filter (fun x => qualifies ctx st subject day x) =
          ss.filter (fun x => qualifies ctx st subject day x) := by
        simp [List.filter_cons, hq]
      rw [if_neg hq, hfc, ih _ hacc]

theorem suggestOuter_eq (ctx : GenCtx) (st : GenState) (subject : Subject)
    (maxS : Nat) :
    ∀ (days : List String) (acc : List String), acc.length < maxS →
      suggestOuter ctx st subject maxS days acc =
        acc ++ ((days.flatMap (fun d =>
          (ctx.time_slots.filter (fun s => qualifies ctx st subject d s)).map
            (fun s => dispStr d s))).take (maxS - acc.length)) := by
  intro days
  induction days with
  | nil => intro acc hacc; simp [suggestOuter]
  | cons d ds ih =>
    intro acc hacc
    rw [suggestOuter, suggestInner_eq ctx st subject maxS d ctx.time_slots acc hacc]
    rw [List.flatMap_cons]
    by_cases hflag : maxS - acc.length ≤
        (ctx.time_slots.filter (fun s => qualifies ctx st subject d s)).length
    · simp only [decide_eq_true hflag]
      have hlen : maxS - acc.length ≤
          ((ctx.time_slots.filter (fun s => qualifies ctx st subject d s)).map
            (fun s => dispStr d s)).length := by
        rw [List.length_map]
        exact hflag
      rw [List.take_append_of_le_length hlen]
    · simp only [decide_eq_false hflag]
      have hstream : ((ctx.time_slots.filter (fun s => qualifies ctx st subject d s)).map
          (fun s => dispStr d s)).length =
          (ctx.time_slots.filter (fun s => qualifies ctx st subject d s)).length :=
        List.length_map _ _
      have htake : ((ctx.time_slots.filter (fun s => qualifies ctx st subject d s)).map
          (fun s => dispStr d s)).take (maxS - acc.length) =
          (ctx.time_slots.filter (fun s => qualifies ctx st subject d s)).map
            (fun s => dispStr d s) := by
        apply List.take_of_length_le
        rw [hstream]
        omega
      rw [htake]
      have hacc' : (acc ++ (ctx.time_slots.filter
          (fun s => qualifies ctx st subject d s)).map (fun s => dispStr d s)).length <
          maxS := by
        rw [List.length_append, hstream]
        omega
      rw [ih _ hacc']
      rw [List.take_append_eq_append_take, htake, ← List.append_assoc]
      have harith : maxS - (acc ++ (ctx.time_slots.filter
          (fun s => qualifies ctx st subject d s)).map (fun s => dispStr d s)).length =
          maxS - acc.length - ((ctx.time_slots.filter
          (fun s => qualifies ctx st subject d s)).map (fun s => dispStr d s)).length := by
        rw [List.length_append]
        omega
      rw [harith]

theorem stream_eq_pairs (ctx : GenCtx) (st : GenState) (subject : Subject) :
    ∀ ds : List String,
      ds.flatMap (fun d => (ctx.time_slots.filter
          (fun s => qualifies ctx st subject d s)).map (fun s => dispStr d s)) =
        ((ds.flatMap (fun d => ctx.time_slots.map (fun s => (d, s)))).filter
          (fun p => qualifies ctx st subject p.1 p.2)).map (fun p => dispStr p.1 p.2) := by
  intro ds
  induction ds with
  | nil => rfl
  | cons d ds ih =>
    simp only [List.flatMap_cons, List.filter_append, List.map_append]
    congr 1
    rw [List.filter_map, List.map_map]
    rfl

/-- The suggester returns exactly the qualifying (day, slot) cells in scan
order, rendered as strings, truncated at the cap. -/
theorem suggest_alternatives_eq (ctx : GenCtx) (st : GenState) (subject : Subject)
    {maxS : Nat} (h : 0 < maxS) :
    suggest_alternatives ctx st subject maxS =
      (((allPairs ctx).filter (fun p => qualifies ctx st subject p.1 p.2)).map
        (fun p => dispStr p.1 p.2)).take maxS := by
  unfold suggest_alternatives
  rw [suggestOuter_eq ctx st subject maxS ctx.days [] (by simpa using h)]
  rw [stream_eq_pairs]
  simp [allPairs]

theorem suggest_length_le (ctx : GenCtx) (st : GenState) (subject : Subject)
    {maxS : Nat} (h : 0 < maxS) :
    (suggest_alternatives ctx st subject maxS).length ≤ maxS := by
  rw [suggest_alternatives_eq ctx st subject h]
  exact List.length_take_le _ _

theorem suggestInner_nil {ctx : GenCtx} {st : GenState} {subject : Subject}
    {maxS : Nat} {d : String} :
    ∀ (slots : List String) (acc : List String),
      (∀ s ∈ slots, qualifies ctx st subject d s = false) →
      suggestInner ctx st subject maxS d slots acc = (acc, false) := by
  intro slots
  induction slots with
  | nil => intro acc _; rfl
  | cons s ss ih =>
    intro acc hq
    rw [suggestInner]
    have hs : ¬ (qualifies ctx st subject d s = true) := by
      rw [hq s (List.mem_cons_self _ _)]
      simp
    rw [if_neg hs]
    exact ih _ (fun x hx => hq x (List.mem_cons_of_mem _ hx))

/-- When no cell qualifies, the suggester returns no suggestions — for any
cap, including zero. -/
theorem suggest_alternatives_nil {ctx : GenCtx} {st : GenState} {subject : Subject}
    {maxS : Nat}
    (hq : ∀ d ∈ ctx.days, ∀ s ∈ ctx.time_slots, qualifies ctx st subject d s = false) :
    suggest_alternatives ctx st subject maxS = [] := by
  unfold suggest_alternatives
  suffices H : ∀ (ds : List String), (∀ d ∈ ds, ∀ s ∈ ctx.time_slots,
      qualifies ctx st subject d s = false) →
      ∀ acc, suggestOuter ctx st subject maxS ds acc = acc by
    exact H ctx.days hq []
  intro ds
  induction ds with
  | nil => intro _ acc; rfl
  | cons d ds ih =>
    intro hds acc
    rw [suggestOuter]
    rw [suggestInner_nil ctx.time_slots acc (hds d (List.mem_cons_self _ _))]
    exact ih (fun x hx => hds x (List.mem_cons_of_mem _ hx)) acc

theorem qualifies_iff (ctx : GenCtx) (st : GenState) (subject : Subject)
    (day slot : String) :
    qualifies ctx st subject day slot = true ↔
      ((∃ t ∈ ctx.teachers, teachesSubject t subject.name = true ∧
          occupied st.teacherOcc t.name day slot = false ∧
          is_teacher_available t day slot = true) ∧
       (∃ c ∈ ctx.classrooms, occupied st.classroomOcc c day slot = false) ∧
       occupied st.cohortOcc (cohortOf subject) day slot = false) := by
  unfold qualifies
  rw [Bool.and_eq_true, Bool.and_eq_true]
  constructor
  · rintro ⟨⟨hT, hC⟩, hS⟩
    rw [Bool.not_eq_true', List.isEmpty_eq_false] at hT hC
    obtain ⟨t, ht⟩ := List.exists_mem_of_ne_nil _ hT
    obtain ⟨c, hc⟩ := List.exists_mem_of_ne_nil _ hC
    rw [List.mem_filter] at ht hc
    obtain ⟨ht1, ht2⟩ := ht
    obtain ⟨hc1, hc2⟩ := hc
    rw [Bool.and_eq_true, Bool.and_eq_true] at ht2
    obtain ⟨⟨hta, htb⟩, htc⟩ := ht2
    rw [Bool.not_eq_true'] at htb hc2 hS
    exact ⟨⟨t, ht1, hta, htb, htc⟩, ⟨c, hc1, hc2⟩, hS⟩
  · rintro ⟨⟨t, ht, h1, h2, h3⟩, ⟨c, hc, hc2⟩, hS⟩
    refine ⟨⟨?_, ?_⟩, ?_⟩
    · rw [Bool.not_eq_true', List.isEmpty_eq_false]
      intro hnil
      have hmem : t ∈ ctx.teachers.filter (fun t =>
          teachesSubject t subject.name &&
          !occupied st.teacherOcc t.name day slot &&
          is_teacher_available t day slot) := by
        rw [List.mem_filter]
        refine ⟨ht, ?_⟩
        rw [Bool.and_eq_true, Bool.and_eq_true, Bool.not_eq_true']
        exact ⟨⟨h1, h2⟩, h3⟩
      rw [hnil] at hmem
      exact absurd hmem (List.not_mem_nil t)
    · rw [Bool.not_eq_true', List.isEmpty_eq_false]
      intro hnil
      have hmem : c ∈ ctx.classrooms.filter (fun c =>
          !occupied st.classroomOcc c day slot) := by
        rw [List.mem_filter, Bool.not_eq_true']
        exact ⟨hc, hc2⟩
      rw [hnil] at hmem
      exact absurd hmem (List.not_mem_nil c)
    · rw [Bool.not_eq_true']
      exact hS

/-- Every qualifying cell would pass the feasibility check with some
teacher and classroom from the input. -/
theorem qualifies_can_place {ctx : GenCtx} {st : GenState} {subject : Subject}
    {day slot : String} (hq : qualifies ctx st subject day slot = true) :
    ∃ t ∈ ctx.teachers, ∃ c ∈ ctx.classrooms,
      can_place st subject t c day slot = true := by
  rw [qualifies_iff] at hq
  obtain ⟨⟨t, ht, -, h2, h3⟩, ⟨c, hc, hc2⟩, hS⟩ := hq
  refine ⟨t, ht, c, hc, ?_⟩
  simp only [can_place]
  rw [h2, hc2, hS, h3]
  rfl

/-- The suggester reads only the occupancy grids of the state. -/
theorem qualifies_grids_congr {ctx : GenCtx} {subject : Subject} {s₁ s₂ : GenState}
    (hT : s₁.teacherOcc = s₂.teacherOcc) (hC : s₁.classroomOcc = s₂.classroomOcc)
    (hS : s₁.cohortOcc = s₂.cohortOcc) (d s : String) :
    qualifies ctx s₁ subject d s = qualifies ctx s₂ subject d s := by
  unfold qualifies
  rw [hT, hC, hS]

theorem suggestInner_grids_congr {ctx : GenCtx} {subject : Subject} {s₁ s₂ : GenState}
    (hT : s₁.teacherOcc = s₂.teacherOcc) (hC : s₁.classroomOcc = s₂.classroomOcc)
    (hS : s₁.cohortOcc = s₂.cohortOcc) {m : Nat} {d : String} :
    ∀ (slots : List String) (acc : List String),
      suggestInner ctx s₁ subject m d slots acc =
        suggestInner ctx s₂ subject m d slots acc := by
  intro slots
  induction slots with
  | nil => intro acc; rfl
  | cons s ss ih =>
    intro acc
    by_cases hq : qualifies ctx s₂ subject d s = true
    · rw [suggestInner, suggestInner, qualifies_grids_congr hT hC hS,
        if_pos hq, if_pos hq]
      by_cases hcap : m ≤ (acc ++ [dispStr d s]).length
      · rw [if_pos hcap, if_pos hcap]
      · rw [if_neg hcap, if_neg hcap]
        exact ih _
    · rw [suggestInner, suggestInner, qualifies_grids_congr hT hC hS,
        if_neg hq, if_neg hq]
      exact ih _

theorem suggestOuter_grids_congr {ctx : GenCtx} {subject : Subject} {s₁ s₂ : GenState}
    (hT : s₁.teacherOcc = s₂.teacherOcc) (hC : s₁.classroomOcc = s₂.classroomOcc)
    (hS : s₁.cohortOcc = s₂.cohortOcc) {m : Nat} :
    ∀ (days : List String) (acc : List String),
      suggestOuter ctx s₁ subject m days acc = suggestOuter ctx s₂ subject m days acc := by
  intro days
  induction days with
  | nil => intro acc; rfl
  | cons d ds ih =>
    intro acc
    rw [suggestOuter, suggestOuter, suggestInner_grids_congr hT hC hS]
    cases suggestInner ctx s₂ subject m d ctx.time_slots acc with
    | mk acc' flag =>
      cases flag
      · exact ih _
      · rfl

theorem suggest_alternatives_grids_congr {ctx : GenCtx} {subject : Subject}
    {s₁ s₂ : GenState}
    (hT : s₁.teacherOcc = s₂.teacherOcc) (hC : s₁.classroomOcc = s₂.classroomOcc)
    (hS : s₁.cohortOcc = s₂.cohortOcc) (m : Nat) :
    suggest_alternatives ctx s₁ subject m = suggest_alternatives ctx s₂ subject m := by
  unfold suggest_alternatives
  exact suggestOuter_grids_congr hT hC hS ctx.days []

/-- Claim C9: the Alternative Suggester scans days then slots in input order
and returns exactly the qualifying cells as "day @ slot" strings, truncated
at the cap; a cell qualifies precisely when some input teacher teaches the
subject, is unoccupied there and satisfies its availability map, some input
classroom is unoccupied there, and the subject's cohort is unoccupied there;
every qualifying cell would pass the feasibility check with some teacher and
classroom.  The suggester is a pure function (no mutation). -/
theorem claim_C9 (ctx : GenCtx) (st : GenState) (subject : Subject)
    (maxS : Nat) (h : 0 < maxS) :
    suggest_alternatives ctx st subject maxS =
      (((allPairs ctx).filter (fun p => qualifies ctx st subject p.1 p.2)).map
        (fun p => dispStr p.1 p.2)).take maxS ∧
    (suggest_alternatives ctx st subject maxS).length ≤ maxS ∧
    (∀ day slot, qualifies ctx st subject day slot = true ↔
      ((∃ t ∈ ctx.teachers, teachesSubject t subject.name = true ∧
          occupied st.teacherOcc t.name day slot = false ∧
          is_teacher_available t day slot = true) ∧
       (∃ c ∈ ctx.classrooms, occupied st.classroomOcc c day slot = false) ∧
       occupied st.cohortOcc (cohortOf subject) day slot = false)) ∧
    (∀ day slot, qualifies ctx st subject day slot = true →
      ∃ t ∈ ctx.teachers, ∃ c ∈ ctx.classrooms,
        can_place st subject t c day slot = true) :=
  ⟨suggest_alternatives_eq ctx st subject h,
   suggest_length_le ctx st subject h,
   fun day slot => qualifies_iff ctx st subject day slot,
   fun _ _ hq => qualifies_can_place hq⟩

/-- Concrete instance of claim C9 at the example inputs with the default
cap 5. -/
theorem claim_C9_witness :
    suggest_alternatives exCtx initState exSubject 5 =
      (((allPairs exCtx).filter (fun p => qualifies exCtx initState exSubject p.1 p.2)).map
        (fun p => dispStr p.1 p.2)).take 5 ∧
    (suggest_alternatives exCtx initState exSubject 5).length ≤ 5 ∧
    (∀ day slot, qualifies exCtx initState exSubject day slot = true ↔
      ((∃ t ∈ exCtx.teachers, teachesSubject t exSubject.name = true ∧
          occupied initState.teacherOcc t.name day slot = false ∧
          is_teacher_available t day slot = true) ∧
       (∃ c ∈ exCtx.classrooms, occupied initState.classroomOcc c day slot = false) ∧
       occupied initState.cohortOcc (cohortOf exSubject) day slot = false)) ∧
    (∀ day slot, qualifies exCtx initState exSubject day slot = true →
      ∃ t ∈ exCtx.teachers, ∃ c ∈ exCtx.classrooms,
        can_place initState exSubject t c day slot = true) :=
  claim_C9 exCtx initState exSubject 5 (by decide)

/-- Claim C4: per processed subject, the number of placed sessions (the
timetable growth) is at most the required sessions per week, and on a
shortfall exactly one unplaced-sessions conflict is appended, carrying
`missing = required - placed` and at most 5 suggestions. -/
theorem claim_C4 (ctx : GenCtx) (st : GenState) (subject : Subject) :
    st.timetable.length ≤ (processSubject ctx st subject).timetable.length ∧
    (processSubject ctx st subject).timetable.length - st.timetable.length ≤
      subject.sessions_per_week.getD 2 ∧
    (processSubject ctx st subject).conflicts = st.conflicts ++
      (if (processSubject ctx st subject).timetable.length - st.timetable.length <
          subject.sessions_per_week.getD 2 then
        [Conflict.unplaced (cohortOf subject) [subject.name]
          (subject.sessions_per_week.getD 2 -
            ((processSubject ctx st subject).timetable.length - st.timetable.length))
          (suggest_alternatives ctx (processSubject ctx st subject) subject 5)]
      else []) ∧
    (suggest_alternatives ctx (processSubject ctx st subject) subject 5).length ≤ 5 := by
  cases hL : placeLoop ctx subject (subject.sessions_per_week.getD 2)
      (subject.sessions_per_week.getD 2 * 300) 0 0 st with
  | mk placed rest =>
    obtain ⟨attempts, st'⟩ := rest
    have hlen := @placeLoop_len ctx subject (subject.sessions_per_week.getD 2)
      (subject.sessions_per_week.getD 2 * 300) 0 0 st
    rw [hL] at hlen
    have hle := @placeLoop_placed_le ctx subject (subject.sessions_per_week.getD 2)
      (subject.sessions_per_week.getD 2 * 300) 0 0 st (Nat.zero_le _)
    rw [hL] at hle
    have hconf := @placeLoop_conflicts ctx subject (subject.sessions_per_week.getD 2)
      (subject.sessions_per_week.getD 2 * 300) 0 0 st
    rw [hL] at hconf
    simp only [] at hlen hle hconf
    simp only [processSubject, hL]
    by_cases hp : placed < subject.sessions_per_week.getD 2
    · rw [if_pos hp]
      have hplaced : st'.timetable.length - st.timetable.length = placed := by omega
      refine ⟨?_, ?_, ?_, ?_⟩
      · show st.timetable.length ≤ st'.timetable.length
        omega
      · show st'.timetable.length - st.timetable.length ≤
          subject.sessions_per_week.getD 2
        omega
      · show st'.conflicts ++
            [Conflict.unplaced (cohortOf subject) [subject.name]
              (subject.sessions_per_week.getD 2 - placed)
              (suggest_alternatives ctx st' subject 5)] =
          st.conflicts ++ _
        rw [hplaced, if_pos hp, hconf]
        congr 3
        apply suggest_alternatives_grids_congr <;> rfl
      · show (suggest_alternatives ctx
            ({ st' with conflicts := st'.conflicts ++
              [Conflict.unplaced (cohortOf subject) [subject.name]
                (subject.sessions_per_week.getD 2 - placed)
                (suggest_alternatives ctx st' subject 5)] }) subject 5).length ≤ 5
        exact suggest_length_le ctx _ subject (by omega)
    · rw [if_neg hp]
      have hplaced : st'.timetable.length - st.timetable.length = placed := by omega
      have hnp : ¬ (st'.timetable.length - st.timetable.length <
          subject.sessions_per_week.getD 2) := by omega
      refine ⟨by omega, by omega, ?_, ?_⟩
      · rw [if_neg hnp, List.append_nil]
        exact hconf
      · exact suggest_length_le ctx st' subject (by omega)

/-! ### Graceful degradation on degenerate inputs -/

theorem tryCandidates_no_teachers {ctx : GenCtx} {st : GenState} {subject : Subject}
    (hT : ctx.teachers.filter (fun t => teachesSubject t subject.name) = [])
    (hshufT : ∀ i l, (ctx.shufT i l).Perm l) :
    ∀ (cands : List (Nat × String × String)) (rnd : Nat),
      ∃ rnd', tryCandidates ctx st subject rnd cands = (none, rnd') := by
  intro cands
  induction cands with
  | nil => intro rnd; exact ⟨rnd, rfl⟩
  | cons cand rest ih =>
    intro rnd
    obtain ⟨sc, d0, s0⟩ := cand
    have hnil : ctx.shufT rnd (ctx.teachers.filter
        (fun t => teachesSubject t subject.name)) = [] := by
      rw [hT]
      exact (hshufT rnd []).eq_nil
    obtain ⟨rnd2, hrest⟩ := ih (rnd + 1)
    refine ⟨rnd2, ?_⟩
    simp only [tryCandidates, hnil, tryTeachers]
    exact hrest

theorem attemptOnce_false {ctx : GenCtx} {subject : Subject} {st : GenState}
    (h : ∃ rnd', tryCandidates ctx st subject st.rnd (sortRanked
      (ctx.days.flatMap (fun day => ctx.time_slots.map (fun slot =>
        (_rank_slots st.cohort_load day slot (cohortOf subject), day, slot))))) =
      (none, rnd')) :
    (attemptOnce ctx subject st).1 = false := by
  obtain ⟨rnd', hnone⟩ := h
  simp [attemptOnce, hnone]

theorem qualifies_false_of_no_teacher {ctx : GenCtx} {subject : Subject}
    (hT : ctx.teachers.filter (fun t => teachesSubject t subject.name) = [])
    (s : GenState) (d slot : String) :
    qualifies ctx s subject d slot = false := by
  unfold qualifies
  have hnil : ctx.teachers.filter (fun t =>
      teachesSubject t subject.name &&
      !occupied s.teacherOcc t.name d slot &&
      is_teacher_available t d slot) = [] := by
    rw [List.filter_eq_nil_iff]
    intro t ht
    have hnt : ¬ (teachesSubject t subject.name = true) := by
      rw [List.filter_eq_nil_iff] at hT
      exact hT t ht
    simp [hnt]
  rw [hnil]
  rfl

/-- Claim C7: on degenerate input — a subject no teacher teaches, or empty
day/slot lists — generation still completes (all model functions are total),
places nothing for the subject, and reports one unplaced-sessions conflict
with the full required count and no suggestions. -/
theorem claim_C7 (ctx : GenCtx) (st : GenState) (subject : Subject)
    (hshufT : ∀ i l, (ctx.shufT i l).Perm l)
    (hdeg : ctx.teachers.filter (fun t => teachesSubject t subject.name) = [] ∨
      ctx.days = [] ∨ ctx.time_slots = []) :
    (processSubject ctx st subject).timetable = st.timetable ∧
    (processSubject ctx st subject).conflicts = st.conflicts ++
      (if 0 < subject.sessions_per_week.getD 2 then
        [Conflict.unplaced (cohortOf subject) [subject.name]
          (subject.sessions_per_week.getD 2) []]
      else []) := by
  have hfail : ∀ s : GenState, (attemptOnce ctx subject s).1 = false := by
    intro s
    apply attemptOnce_false
    rcases hdeg with hT | hD | hS
    · exact tryCandidates_no_teachers hT hshufT _ _
    · have hc : ctx.days.flatMap (fun day => ctx.time_slots.map (fun slot =>
          (_rank_slots s.cohort_load day slot (cohortOf subject), day, slot))) = [] := by
        rw [hD]
        rfl
      rw [hc]
      exact ⟨s.rnd, rfl⟩
    · have hc : ctx.days.flatMap (fun day => ctx.time_slots.map (fun slot =>
          (_rank_slots s.cohort_load day slot (cohortOf subject), day, slot))) = [] := by
        simp [hS]
      rw [hc]
      exact ⟨s.rnd, rfl⟩
  by_cases hn : 0 < subject.sessions_per_week.getD 2
  · obtain ⟨f, hf⟩ : ∃ f, subject.sessions_per_week.getD 2 * 300 = f + 1 := by
      have : 0 < subject.sessions_per_week.getD 2 * 300 := by positivity
      exact ⟨subject.sessions_per_week.getD 2 * 300 - 1, by omega⟩
    have hloop : placeLoop ctx subject (subject.sessions_per_week.getD 2)
        (subject.sessions_per_week.getD 2 * 300) 0 0 st =
        (0, 1, (attemptOnce ctx subject st).2) := by
      rw [hf, placeLoop, if_pos hn]
      cases hA : attemptOnce ctx subject st with
      | mk b s2 =>
        have hb := hfail st
        rw [hA] at hb
        cases b
        · rfl
        · exact absurd hb (by simp)
    have htt : (attemptOnce ctx subject st).2.timetable = st.timetable := by
      rcases attemptOnce_cases ctx subject st with ⟨-, h2⟩ | ⟨hb, -⟩
      · exact h2
      · rw [hfail st] at hb
        exact absurd hb (by simp)
    have hcf : (attemptOnce ctx subject st).2.conflicts = st.conflicts :=
      attemptOnce_conflicts
    have hsugg : suggest_alternatives ctx (attemptOnce ctx subject st).2 subject 5 = [] := by
      apply suggest_alternatives_nil
      rcases hdeg with hT | hD | hS
      · intro d _ s _
        exact qualifies_false_of_no_teacher hT _ d s
      · intro d hd
        rw [hD] at hd
        cases hd
      · intro d _ s hs
        rw [hS] at hs
        cases hs
    simp only [processSubject, hloop]
    rw [if_pos hn]
    constructor
    · show (attemptOnce ctx subject st).2.timetable = st.timetable
      exact htt
    · show (attemptOnce ctx subject st).2.conflicts ++
          [Conflict.unplaced (cohortOf subject) [subject.name]
            (subject.sessions_per_week.getD 2 - 0)
            (suggest_alternatives ctx (attemptOnce ctx subject st).2 subject 5)] =
        st.conflicts ++ _
      rw [hcf, hsugg, Nat.sub_zero, if_pos hn]
  · have hn0 : subject.sessions_per_week.getD 2 = 0 := by omega
    simp only [processSubject, hn0]
    simp [placeLoop]

/-- Concrete instance of claim C7: a subject taught by no teacher yields no
placement and one unplaced-sessions conflict with the default 2 missing
sessions and no suggestions. -/
theorem claim_C7_witness :
    (processSubject exCtxNoTeacher initState exSubjectChem).timetable =
      initState.timetable ∧
    (processSubject exCtxNoTeacher initState exSubjectChem).conflicts =
      initState.conflicts ++
      (if 0 < exSubjectChem.sessions_per_week.getD 2 then
        [Conflict.unplaced (cohortOf exSubjectChem) [exSubjectChem.name]
          (exSubjectChem.sessions_per_week.getD 2) []]
      else []) :=
  claim_C7 exCtxNoTeacher initState exSubjectChem
    (fun _ l => List.Perm.refl l) (Or.inl rfl)

/-- Claim C8: the placement loop for a subject requiring `n` sessions makes
at most `n × 300` attempts (the attempt counter never exceeds the budget, so
generation terminates), and a single fruitless attempt — all candidates
exhausted with no feasible placement — ends placement for that subject
immediately. -/
theorem claim_C8 (ctx : GenCtx) (subject : Subject) (st : GenState)
    (fuel placed attempts : Nat) :
    ((placeLoop ctx subject (subject.sessions_per_week.getD 2)
        (subject.sessions_per_week.getD 2 * 300) 0 0 st).2.1 ≤
      subject.sessions_per_week.getD 2 * 300) ∧
    ((attemptOnce ctx subject st).1 = false →
      placed < subject.sessions_per_week.getD 2 →
      placeLoop ctx subject (subject.sessions_per_week.getD 2)
          (fuel + 1) placed attempts st =
        (placed, attempts + 1, (attemptOnce ctx subject st).2)) := by
  constructor
  · have := @placeLoop_attempts ctx subject (subject.sessions_per_week.getD 2)
      (subject.sessions_per_week.getD 2 * 300) 0 0 st
    omega
  · intro hb hlt
    rw [placeLoop, if_pos hlt]
    cases hA : attemptOnce ctx subject st with
    | mk b s2 =>
      rw [hA] at hb
      cases b
      · rfl
      · exact absurd hb (by simp)

/-- Concrete instance of claim C8 on inputs where the single attempt fails:
the loop stops after one attempt, within the 600-attempt budget. -/
theorem claim_C8_witness :
    ((placeLoop exCtxNoTeacher exSubjectChem
        (exSubjectChem.sessions_per_week.getD 2)
        (exSubjectChem.sessions_per_week.getD 2 * 300) 0 0 initState).2.1 ≤
      exSubjectChem.sessions_per_week.getD 2 * 300) ∧
    placeLoop exCtxNoTeacher exSubjectChem (exSubjectChem.sessions_per_week.getD 2)
        (0 + 1) 0 0 initState =
      (0, 0 + 1, (attemptOnce exCtxNoTeacher exSubjectChem initState).2) :=
  ⟨(claim_C8 exCtxNoTeacher exSubjectChem initState 0 0 0).1,
   (claim_C8 exCtxNoTeacher exSubjectChem initState 0 0 0).2 (by decide) (by decide)⟩

/-! ### The sessions-per-week value influences processing only through its
default-2 reading -/

theorem cohortOf_spw (subject : Subject) (v : Option Nat) :
    cohortOf { subject with sessions_per_week := v } = cohortOf subject := rfl

theorem name_spw (subject : Subject) (v : Option Nat) :
    ({ subject with sessions_per_week := v } : Subject).name = subject.name := rfl

theorem spw_proj (subject : Subject) (v : Option Nat) :
    ({ subject with sessions_per_week := v } : Subject).sessions_per_week = v := rfl

theorem can_place_spw (st : GenState) (subject : Subject) (v : Option Nat)
    (t : Teacher) (c d s : String) :
    can_place st { subject with sessions_per_week := v } t c d s =
      can_place st subject t c d s := rfl

theorem place_entry_spw (st : GenState) (subject : Subject) (v : Option Nat)
    (t : Teacher) (c d s : String) :
    place_entry st { subject with sessions_per_week := v } t c d s =
      place_entry st subject t c d s := rfl

theorem tryClassrooms_spw (st : GenState) (subject : Subject) (v : Option Nat)
    (t : Teacher) (d s : String) :
    ∀ cs : List String,
      tryClassrooms st { subject with sessions_per_week := v } t d s cs =
        tryClassrooms st subject t d s cs := by
  intro cs
  induction cs with
  | nil => rfl
  | cons c cs ih =>
    rw [tryClassrooms, tryClassrooms, can_place_spw]
    by_cases h : can_place st subject t c d s = true
    · rw [if_pos h, if_pos h]
    · rw [if_neg h, if_neg h]
      exact ih

theorem tryTeachers_spw (ctx : GenCtx) (st : GenState) (subject : Subject)
    (v : Option Nat) (d s : String) :
    ∀ (ts : List Teacher) (rnd : Nat),
      tryTeachers ctx st { subject with sessions_per_week := v } d s rnd ts =
        tryTeachers ctx st subject d s rnd ts := by
  intro ts
  induction ts with
  | nil => intro rnd; rfl
  | cons t0 ts ih =>
    intro rnd
    simp only [tryTeachers, tryClassrooms_spw, ih]

theorem tryCandidates_spw (ctx : GenCtx) (st : GenState) (subject : Subject)
    (v : Option Nat) :
    ∀ (cands : List (Nat × String × String)) (rnd : Nat),
      tryCandidates ctx st { subject with sessions_per_week := v } rnd cands =
        tryCandidates ctx st subject rnd cands := by
  intro cands
  induction cands with
  | nil => intro rnd; rfl
  | cons cand rest ih =>
    intro rnd
    obtain ⟨sc, d0, s0⟩ := cand
    simp only [tryCandidates, name_spw, tryTeachers_spw, ih]

theorem attemptOnce_spw (ctx : GenCtx) (subject : Subject) (v : Option Nat)
    (st : GenState) :
    attemptOnce ctx { subject with sessions_per_week := v } st =
      attemptOnce ctx subject st := by
  simp only [attemptOnce, cohortOf_spw, tryCandidates_spw, place_entry_spw]

theorem placeLoop_spw (ctx : GenCtx) (subject : Subject) (v : Option Nat) (n : Nat) :
    ∀ (fuel placed attempts : Nat) (s : GenState),
      placeLoop ctx { subject with sessions_per_week := v } n fuel placed attempts s =
        placeLoop ctx subject n fuel placed attempts s := by
  intro fuel
  induction fuel with
  | zero => intro placed attempts s; rfl
  | succ f ih =>
    intro placed attempts s
    simp only [placeLoop, attemptOnce_spw, ih]

theorem qualifies_spw (ctx : GenCtx) (s : GenState) (subject : Subject)
    (v : Option Nat) (d slot : String) :
    qualifies ctx s { subject with sessions_per_week := v } d slot =
      qualifies ctx s subject d slot := rfl

theorem suggestInner_spw (ctx : GenCtx) (s : GenState) (subject : Subject)
    (v : Option Nat) (m : Nat) (d : String) :
    ∀ (slots : List String) (acc : List String),
      suggestInner ctx s { subject with sessions_per_week := v } m d slots acc =
        suggestInner ctx s subject m d slots acc := by
  intro slots
  induction slots with
  | nil => intro acc; rfl
  | cons s0 ss ih =>
    intro acc
    simp only [suggestInner, qualifies_spw, ih]

theorem suggestOuter_spw (ctx : GenCtx) (s : GenState) (subject : Subject)
    (v : Option Nat) (m : Nat) :
    ∀ (days : List String) (acc : List String),
      suggestOuter ctx s { subject with sessions_per_week := v } m days acc =
        suggestOuter ctx s subject m days acc := by
  intro days
  induction days with
  | nil => intro acc; rfl
  | cons d ds ih =>
    intro acc
    simp only [suggestOuter, suggestInner_spw, ih]

theorem suggest_alternatives_spw (ctx : GenCtx) (s : GenState) (subject : Subject)
    (v : Option Nat) (m : Nat) :
    suggest_alternatives ctx s { subject with sessions_per_week := v } m =
      suggest_alternatives ctx s subject m := by
  unfold suggest_alternatives
  exact suggestOuter_spw ctx s subject v m ctx.days []

/-- Claim C10: a subject that omits its sessions-per-week value is processed
exactly like the same subject requiring 2 sessions per week — the code's
default for the missing field is 2. -/
theorem claim_C10 (ctx : GenCtx) (st : GenState) (subject : Subject) :
    processSubject ctx st { subject with sessions_per_week := none } =
      processSubject ctx st { subject with sessions_per_week := some 2 } := by
  simp only [processSubject, spw_proj, Option.getD_none, Option.getD_some,
    placeLoop_spw, suggest_alternatives_spw, cohortOf_spw, name_spw]

end Timetable
